import Mathlib

/-!
Verification of the hashed-bucket buffer cache in kernel/bio.c.

The cache is embedded shallowly: the slot pool is a function from slot
indices to slot records, each bucket's intrusive chain is a list of slot
indices (head first), and the four client operations (bget, brelse, bpin,
bunpin) plus bread are translated as pure functions on the cache state.
Fatal panics are modelled by returning none.  Locks are elided except for
the per-slot blocking lock's holder flag, which bget/brelse manipulate and
brelse asserts on.  A step relation captures the sequential interleaving of
client calls, each step being one completed operation.
-/

namespace Bio

/-- Number of hash buckets, NBUCKET in bio.c. -/
def NBUCKET : Nat := 13

/-- Modelled from the spec: the pool size NBUF comes from param.h, which is
not part of the sources; the spec fixes a pool of 30 slots with 13 buckets. -/
def NBUF : Nat := 30

/-- The hash function of bio.c: (dev + blockno) % NBUCKET. -/
def hash (dev blockno : Nat) : Nat := (dev + blockno) % NBUCKET

/-- Modelled from the spec: struct buf lives in buf.h, which is not part of
the sources.  Fields follow the spec's Buffer Slot data model: identity
(dev, blockno), validity flag, reference count, recency marker (timestamp),
abstract payload (data), and the blocking lock's holder flag. -/
structure Buf where
  dev : Nat
  blockno : Nat
  valid : Bool
  refcnt : Nat
  timestamp : Nat
  data : Nat
  lockHeld : Bool
deriving DecidableEq, Repr

/-- The zero-initialized slot record: C globals start zeroed, and binit sets
none of these fields. -/
def initBuf : Buf := ⟨0, 0, false, 0, 0, 0, false⟩

instance : Inhabited Buf := ⟨initBuf⟩

/-- Pointwise update of a function at one key. -/
def upd {α : Type} (f : Nat → α) (k : Nat) (v : α) : Nat → α :=
  fun x => if x = k then v else f x

/-- The cache state: the slot pool (indices below NBUF are meaningful) and
the bucket chains, each a list of slot indices with the chain head first. -/
structure BCache where
  bufs : Nat → Buf
  chains : Nat → List Nat

/-- Chain construction of binit: slot i is pushed onto the head of bucket
(i % NBUCKET)'s chain, for i = 0 .. NBUF-1 in order. -/
def binitChains : Nat → List Nat :=
  (List.range NBUF).foldl (fun cs i => upd cs (i % NBUCKET) (i :: cs (i % NBUCKET)))
    (fun _ => [])

/-- The state binit leaves behind: all slots zeroed, slots distributed
round-robin over the buckets. -/
def binitState : BCache :=
  { bufs := fun _ => initBuf, chains := binitChains }

/-- The identity test of the lookup loops: b->dev == dev && b->blockno == blockno. -/
def matchesId (bufs : Nat → Buf) (dev blockno : Nat) (j : Nat) : Bool :=
  (bufs j).dev == dev && (bufs j).blockno == blockno

/-- The bucket-chain lookup loop of bget: first slot in the chain whose
identity matches. -/
def findInChain (bufs : Nat → Buf) (chain : List Nat) (dev blockno : Nat) : Option Nat :=
  chain.find? (matchesId bufs dev blockno)

/-- The eviction scan's running champion: its bucket index, its position in
that bucket's chain (the C code keeps the predecessor pointer
prev_replace_buf; position pos corresponds to predecessor pos-1, with the
bucket's dummy head for pos = 0), and the slot index itself
(prev_replace_buf->next). -/
structure Champ where
  bkt : Nat
  pos : Nat
  idx : Nat
deriving DecidableEq, Repr

/-- The eviction scan's replacement test, from the inner loop of bget:
b->next->refcnt == 0 && (!prev_replace_buf ||
b->next->timestamp < prev_replace_buf->next->timestamp). -/
def champBeats (bufs : Nat → Buf) (ch : Option Nat) (j : Nat) : Bool :=
  (bufs j).refcnt == 0 &&
    (match ch with
     | none => true
     | some c => decide ((bufs j).timestamp < (bufs c).timestamp))

/-- The inner loop of the eviction scan over one bucket's chain, carrying
the position of the element under examination. -/
def scanChain (bufs : Nat → Buf) (bkt : Nat) : Nat → List Nat → Option Champ → Option Champ
  | _, [], ch => ch
  | pos, j :: rest, ch =>
      scanChain bufs bkt (pos + 1) rest
        (if champBeats bufs (ch.map Champ.idx) j then some ⟨bkt, pos, j⟩ else ch)

/-- The outer loop of the eviction scan: all buckets in index order.  The
per-bucket found flag and the lock hand-over of the C code only manage
locks and do not influence the champion. -/
def evictScan (s : BCache) : Option Champ :=
  (List.range NBUCKET).foldl (fun ch k => scanChain s.bufs k 0 (s.chains k) ch) none

/-- Replace one slot record in the pool. -/
def setBuf (s : BCache) (i : Nat) (v : Buf) : BCache :=
  { s with bufs := upd s.bufs i v }

/-- Replace one bucket's chain. -/
def setChain (s : BCache) (k : Nat) (c : List Nat) : BCache :=
  { s with chains := upd s.chains k c }

/-- bget: fast-path lookup in the hash bucket; on miss, the double-checked
re-lookup under the eviction lock; on a true miss, the eviction scan,
relocation of the champion into the requested bucket when the buckets
differ, and rebinding of the identity.  none models panic("bget: no
buffers").  The returned slot's blocking lock is held by the caller
(acquiresleep), recorded in lockHeld. -/
def bget (s : BCache) (dev blockno : Nat) : Option (BCache × Nat) :=
  let h := hash dev blockno
  match findInChain s.bufs (s.chains h) dev blockno with
  | some i =>
      let bi := s.bufs i
      some (setBuf s i { bi with refcnt := bi.refcnt + 1, lockHeld := true }, i)
  | none =>
    match findInChain s.bufs (s.chains h) dev blockno with
    | some i =>
        let bi := s.bufs i
        some (setBuf s i { bi with refcnt := bi.refcnt + 1, lockHeld := true }, i)
    | none =>
      match evictScan s with
      | none => none
      | some c =>
          let s1 :=
            if c.bkt ≠ h then
              let s' := setChain s c.bkt ((s.chains c.bkt).eraseIdx c.pos)
              setChain s' h (c.idx :: s'.chains h)
            else s
          let bi := s1.bufs c.idx
          some (setBuf s1 c.idx
            { bi with dev := dev, blockno := blockno, refcnt := 1, valid := false,
                      lockHeld := true }, c.idx)

/-- bread: bget, then populate the payload from the device when the slot is
not valid.  The disk parameter stands for virtio_disk_rw with direction
read; the returned Bool records whether that device-read collaborator was
invoked. -/
def bread (disk : Nat → Nat → Nat) (s : BCache) (dev blockno : Nat) :
    Option (BCache × Nat × Bool) :=
  match bget s dev blockno with
  | none => none
  | some (s1, i) =>
      let bi := s1.bufs i
      if bi.valid then some (s1, i, false)
      else some (setBuf s1 i { bi with data := disk bi.dev bi.blockno, valid := true }, i, true)

/-- brelse: none models panic("brelse") when the caller does not hold the
slot's blocking lock; otherwise the lock is released, the refcount
decremented under the bucket lock of hash(dev, blockno), and the timestamp
stamped with the tick source exactly when the refcount reaches zero. -/
def brelse (ticks : Nat) (s : BCache) (i : Nat) : Option BCache :=
  let bi := s.bufs i
  if bi.lockHeld then
    let r := bi.refcnt - 1
    some (setBuf s i
      { bi with lockHeld := false, refcnt := r,
                timestamp := if r = 0 then ticks else bi.timestamp })
  else none

/-- bpin: refcount increment under the bucket lock of hash(dev, blockno). -/
def bpin (s : BCache) (i : Nat) : BCache :=
  let bi := s.bufs i
  setBuf s i { bi with refcnt := bi.refcnt + 1 }

/-- bunpin: refcount decrement under the bucket lock of hash(dev, blockno). -/
def bunpin (s : BCache) (i : Nat) : BCache :=
  let bi := s.bufs i
  setBuf s i { bi with refcnt := bi.refcnt - 1 }

/-- The scan order of the eviction scan: all chains concatenated in bucket
index order. -/
def scanOrder (s : BCache) : List Nat :=
  (List.range NBUCKET).flatMap s.chains

/-- The bucket a slot's current identity hashes to, which is the bucket
whose lock brelse, bpin and bunpin take. -/
def bucketOf (s : BCache) (i : Nat) : Nat :=
  hash (s.bufs i).dev (s.bufs i).blockno

/-- One completed client operation.  The refcount preconditions express the
client contract: brelse, bpin and bunpin are applied only to a slot the
caller currently holds a reference to (bio.c's "do not use the buffer after
calling brelse"). -/
inductive Step : BCache → BCache → Prop where
  | bget (s : BCache) (dev blockno : Nat) (s' : BCache) (i : Nat) :
      bget s dev blockno = some (s', i) → Step s s'
  | brelse (s : BCache) (ticks i : Nat) (s' : BCache) :
      0 < (s.bufs i).refcnt → brelse ticks s i = some s' → Step s s'
  | bpin (s : BCache) (i : Nat) :
      0 < (s.bufs i).refcnt → Step s (bpin s i)
  | bunpin (s : BCache) (i : Nat) :
      0 < (s.bufs i).refcnt → Step s (bunpin s i)

/-- States reachable from the state binit leaves behind. -/
inductive Reachable : BCache → Prop where
  | init : Reachable binitState
  | step {s s' : BCache} : Reachable s → Step s s' → Reachable s'

/-- The flattened form of the eviction scan's running-champion recurrence:
the same replacement test applied to the scan order, tracking only the
champion's slot index.  Used to state what the scan computes. -/
def selMin (bufs : Nat → Buf) : List Nat → Option Nat → Option Nat
  | [], acc => acc
  | j :: rest, acc => selMin bufs rest (if champBeats bufs acc j then some j else acc)

/-- The state after bget (0,0) on the freshly initialized cache: a fast-path
hit on slot 26, the head of bucket 0's chain. -/
def st1 : BCache := ((bget binitState 0 0).getD (binitState, 0)).1

/-- The state after bget (0,1) on the freshly initialized cache: a true miss
that evicts slot 26 from bucket 0 and relocates it into bucket 1. -/
def st2 : BCache := ((bget binitState 0 1).getD (binitState, 0)).1

/-- A concrete device-read collaborator returning payload 7 for every block. -/
def diskC : Nat → Nat → Nat := fun _ _ => 7

/-- The state after bread (0,0) on the freshly initialized cache: the hit
slot is invalid, so the device read fills the payload. -/
def st3 : BCache := ((bread diskC binitState 0 0).getD (binitState, 0, false)).1

/-- A concrete exhausted cache: one slot, chained in bucket 0, holding a
live reference. -/
def stFull : BCache :=
  { bufs := fun _ => { initBuf with refcnt := 1 },
    chains := fun k => if k = 0 then [0] else [] }

/-- The inductive invariant: pool and chain bounds, every slot index in
exactly one chain position, every slot holding a live reference is the
first match for its identity in the chain of the bucket that identity
hashes to, and every slot is either an untouched startup slot (zero
identity, no reference) or resides in the chain its identity hashes to. -/
def Inv (s : BCache) : Prop :=
  (∀ j ∈ scanOrder s, j < NBUF) ∧
  (∀ i, i < NBUF → (scanOrder s).count i = 1) ∧
  (∀ i, 0 < (s.bufs i).refcnt →
    findInChain s.bufs (s.chains (bucketOf s i)) (s.bufs i).dev (s.bufs i).blockno = some i) ∧
  (∀ i, i < NBUF →
    ((s.bufs i).dev = 0 ∧ (s.bufs i).blockno = 0 ∧ (s.bufs i).refcnt = 0) ∨
      i ∈ s.chains (bucketOf s i))

/-! ### Helper lemmas about upd, find?, count and eraseIdx -/

theorem upd_same {α : Type} (f : Nat → α) (k : Nat) (v : α) : upd f k v k = v := by
  simp [upd]

theorem upd_ne {α : Type} (f : Nat → α) (k : Nat) (v : α) {x : Nat} (h : x ≠ k) :
    upd f k v x = f x := by
  simp [upd, h]

theorem find?_congr_on {p q : Nat → Bool} :
    ∀ {l : List Nat}, (∀ x ∈ l, p x = q x) → l.find? p = l.find? q := by
  intro l
  induction l with
  | nil => intro _; rfl
  | cons a l ih =>
    intro h
    have ha : p a = q a := h a (by simp)
    by_cases hq : q a = true
    · rw [List.find?_cons_of_pos _ (ha ▸ hq), List.find?_cons_of_pos _ hq]
    · rw [List.find?_cons_of_neg _ (ha ▸ hq), List.find?_cons_of_neg _ hq]
      exact ih (fun x hx => h x (by simp [hx]))

theorem find?_of_unique {p : Nat → Bool} :
    ∀ {l : List Nat} {i : Nat}, i ∈ l → p i = true → (∀ j ∈ l, j ≠ i → p j = false) →
      l.find? p = some i := by
  intro l
  induction l with
  | nil => intro i h; simp at h
  | cons a l ih =>
    intro i hmem hp huniq
    by_cases hai : a = i
    · subst hai; exact List.find?_cons_of_pos _ hp
    · have hpa : p a = false := huniq a (by simp) hai
      rw [List.find?_cons_of_neg _ (by simp [hpa])]
      have hmem' : i ∈ l := by
        rcases List.mem_cons.mp hmem with h | h
        · exact absurd h.symm hai
        · exact h
      exact ih hmem' hp (fun j hj => huniq j (by simp [hj]))

theorem find?_eraseIdx_ne {p : Nat → Bool} :
    ∀ {l : List Nat} {pos : Nat} {j a : Nat}, l.find? p = some j → l[pos]? = some a →
      a ≠ j → (l.eraseIdx pos).find? p = some j := by
  intro l
  induction l with
  | nil => intro pos j a h; simp at h
  | cons x l ih =>
    intro pos j a hfind hget hne
    cases pos with
    | zero =>
      have hxa : x = a := by simpa using hget
      have hpx : p x = false := by
        by_cases hp : p x = true
        · rw [List.find?_cons_of_pos _ hp] at hfind
          exact absurd (hxa ▸ Option.some.inj hfind) hne
        · simpa using hp
      rw [List.find?_cons_of_neg _ (by simp [hpx])] at hfind
      simpa [List.eraseIdx] using hfind
    | succ pos =>
      simp only [List.getElem?_cons_succ] at hget
      simp only [List.eraseIdx]
      by_cases hp : p x = true
      · rw [List.find?_cons_of_pos _ hp] at hfind
        rw [List.find?_cons_of_pos _ hp]
        exact hfind
      · rw [List.find?_cons_of_neg _ hp] at hfind
        rw [List.find?_cons_of_neg _ hp]
        exact ih hfind hget hne

theorem count_eraseIdx_self :
    ∀ {l : List Nat} {pos a : Nat}, l[pos]? = some a →
      (l.eraseIdx pos).count a + 1 = l.count a := by
  intro l
  induction l with
  | nil => intro pos a h; simp at h
  | cons x l ih =>
    intro pos a hget
    cases pos with
    | zero =>
      simp at hget
      subst hget
      simp [List.eraseIdx, List.count_cons]
    | succ pos =>
      simp only [List.getElem?_cons_succ] at hget
      have h := ih hget
      simp only [List.eraseIdx, List.count_cons]
      omega

theorem count_eraseIdx_ne :
    ∀ {l : List Nat} {pos a x : Nat}, l[pos]? = some a → x ≠ a →
      (l.eraseIdx pos).count x = l.count x := by
  intro l
  induction l with
  | nil => intro pos a x h; simp at h
  | cons y l ih =>
    intro pos a x hget hne
    cases pos with
    | zero =>
      have hya : y = a := by simpa using hget
      have hyx : ¬ y = x := fun h => hne (h ▸ hya)
      simp [List.eraseIdx, List.count_cons, hyx]
    | succ pos =>
      simp only [List.getElem?_cons_succ] at hget
      simp [List.eraseIdx, List.count_cons, ih hget hne]

theorem flatMap_congr_on {α : Type} {f g : Nat → List α} :
    ∀ {ks : List Nat}, (∀ k ∈ ks, f k = g k) → ks.flatMap f = ks.flatMap g := by
  intro ks
  induction ks with
  | nil => intro _; rfl
  | cons a ks ih =>
    intro h
    rw [List.flatMap_cons, List.flatMap_cons, h a (by simp),
      ih (fun k hk => h k (by simp [hk]))]

theorem count_flatMap_upd (x : Nat) :
    ∀ {ks : List Nat}, ks.Nodup → ∀ {f : Nat → List Nat} {k : Nat} {v : List Nat}, k ∈ ks →
      (ks.flatMap (upd f k v)).count x + (f k).count x
        = (ks.flatMap f).count x + v.count x := by
  intro ks
  induction ks with
  | nil => intro _ f k v h; simp at h
  | cons a ks ih =>
    intro hnd f k v hk
    have hna : a ∉ ks := (List.nodup_cons.mp hnd).1
    have hnd' : ks.Nodup := (List.nodup_cons.mp hnd).2
    rw [List.flatMap_cons, List.flatMap_cons, List.count_append, List.count_append]
    by_cases hka : k = a
    · subst hka
      have hrest : ks.flatMap (upd f k v) = ks.flatMap f :=
        flatMap_congr_on (fun j hj => upd_ne f k v (fun hjk => hna (hjk ▸ hj)))
      rw [hrest, upd_same]
      omega
    · have hfa : upd f k v a = f a := upd_ne f k v (fun h => hka h.symm)
      have hk' : k ∈ ks := by
        rcases List.mem_cons.mp hk with h | h
        · exact absurd h hka
        · exact h
      have := ih hnd' (f := f) (k := k) (v := v) hk'
      rw [hfa]
      omega

theorem count_le_flatMap (x : Nat) {f : Nat → List Nat} :
    ∀ {ks : List Nat} {k : Nat}, k ∈ ks → (f k).count x ≤ (ks.flatMap f).count x := by
  intro ks
  induction ks with
  | nil => intro k h; simp at h
  | cons a ks ih =>
    intro k hk
    rw [List.flatMap_cons, List.count_append]
    by_cases hka : k = a
    · subst hka; omega
    · have hk' : k ∈ ks := by
        rcases List.mem_cons.mp hk with h | h
        · exact absurd h hka
        · exact h
      have := ih hk'
      omega

theorem two_le_count_flatMap (x : Nat) {f : Nat → List Nat} :
    ∀ {ks : List Nat}, ks.Nodup → ∀ {k1 k2 : Nat}, k1 ∈ ks → k2 ∈ ks → k1 ≠ k2 →
      x ∈ f k1 → x ∈ f k2 → 2 ≤ (ks.flatMap f).count x := by
  intro ks
  induction ks with
  | nil => intro _ k1 k2 h; simp at h
  | cons a ks ih =>
    intro hnd k1 k2 hk1 hk2 hne hx1 hx2
    have hnd' : ks.Nodup := (List.nodup_cons.mp hnd).2
    rw [List.flatMap_cons, List.count_append]
    by_cases h1a : k1 = a
    · have hk2' : k2 ∈ ks := by
        rcases List.mem_cons.mp hk2 with h | h
        · exact absurd (h1a.trans h.symm) hne
        · exact h
      have hca : 1 ≤ (f a).count x := List.count_pos_iff.mpr (h1a ▸ hx1)
      have hck : (f k2).count x ≤ (ks.flatMap f).count x := count_le_flatMap x hk2'
      have hc2 : 1 ≤ (f k2).count x := List.count_pos_iff.mpr hx2
      omega
    · by_cases h2a : k2 = a
      · have hk1' : k1 ∈ ks := by
          rcases List.mem_cons.mp hk1 with h | h
          · exact absurd h h1a
          · exact h
        have hca : 1 ≤ (f a).count x := List.count_pos_iff.mpr (h2a ▸ hx2)
        have hck : (f k1).count x ≤ (ks.flatMap f).count x := count_le_flatMap x hk1'
        have hc1 : 1 ≤ (f k1).count x := List.count_pos_iff.mpr hx1
        omega
      · have hk1' : k1 ∈ ks := by
          rcases List.mem_cons.mp hk1 with h | h
          · exact absurd h h1a
          · exact h
        have hk2' : k2 ∈ ks := by
          rcases List.mem_cons.mp hk2 with h | h
          · exact absurd h h2a
          · exact h
        have := ih hnd' hk1' hk2' hne hx1 hx2
        omega

/-! ### Characterization of the eviction scan -/

theorem champBeats_none {bufs : Nat → Buf} {j : Nat} :
    champBeats bufs none j = true ↔ (bufs j).refcnt = 0 := by
  simp [champBeats]

theorem champBeats_some {bufs : Nat → Buf} {a j : Nat} :
    champBeats bufs (some a) j = true ↔
      (bufs j).refcnt = 0 ∧ (bufs j).timestamp < (bufs a).timestamp := by
  simp [champBeats]

theorem scanChain_map (bufs : Nat → Buf) (bkt : Nat) :
    ∀ (l : List Nat) (pos : Nat) (ch : Option Champ),
      (scanChain bufs bkt pos l ch).map Champ.idx = selMin bufs l (ch.map Champ.idx) := by
  intro l
  induction l with
  | nil => intro pos ch; rfl
  | cons j rest ih =>
    intro pos ch
    simp only [scanChain, selMin, ih]
    congr 1
    by_cases h : champBeats bufs (ch.map Champ.idx) j = true
    · simp [h]
    · simp [h]

theorem selMin_append (bufs : Nat → Buf) :
    ∀ (l1 l2 : List Nat) (acc : Option Nat),
      selMin bufs (l1 ++ l2) acc = selMin bufs l2 (selMin bufs l1 acc) := by
  intro l1
  induction l1 with
  | nil => intro l2 acc; rfl
  | cons j rest ih =>
    intro l2 acc
    rw [List.cons_append]
    simp only [selMin]
    exact ih l2 _

theorem foldlScan_map (s : BCache) :
    ∀ (ks : List Nat) (ch : Option Champ),
      (ks.foldl (fun ch k => scanChain s.bufs k 0 (s.chains k) ch) ch).map Champ.idx
        = selMin s.bufs (ks.flatMap s.chains) (ch.map Champ.idx) := by
  intro ks
  induction ks with
  | nil => intro ch; simp [selMin]
  | cons k ks ih =>
    intro ch
    rw [List.foldl_cons, List.flatMap_cons, selMin_append, ih, scanChain_map]

theorem evictScan_map (s : BCache) :
    (evictScan s).map Champ.idx = selMin s.bufs (scanOrder s) none := by
  rw [evictScan, scanOrder]
  exact foldlScan_map s (List.range NBUCKET) none

theorem selMin_acc_le (bufs : Nat → Buf) :
    ∀ {l : List Nat} {a c : Nat}, selMin bufs l (some a) = some c →
      (bufs c).timestamp ≤ (bufs a).timestamp := by
  intro l
  induction l with
  | nil =>
    intro a c h
    cases Option.some.inj h
    exact le_refl _
  | cons j rest ih =>
    intro a c h
    simp only [selMin] at h
    by_cases hb : champBeats bufs (some a) j = true
    · rw [if_pos hb] at h
      have hlt := (champBeats_some.mp hb).2
      exact le_trans (ih h) (le_of_lt hlt)
    · rw [if_neg hb] at h
      exact ih h

theorem champBeats_refcnt {bufs : Nat → Buf} {acc : Option Nat} {j : Nat} :
    champBeats bufs acc j = true → (bufs j).refcnt = 0 := by
  cases acc with
  | none => exact fun h => champBeats_none.mp h
  | some a => exact fun h => (champBeats_some.mp h).1

theorem selMin_cases (bufs : Nat → Buf) :
    ∀ {l : List Nat} {acc : Option Nat} {c : Nat}, selMin bufs l acc = some c →
      acc = some c ∨ (c ∈ l ∧ (bufs c).refcnt = 0) := by
  intro l
  induction l with
  | nil => intro acc c h; exact Or.inl h
  | cons j rest ih =>
    intro acc c h
    simp only [selMin] at h
    by_cases hb : champBeats bufs acc j = true
    · rw [if_pos hb] at h
      rcases ih h with h' | h'
      · cases Option.some.inj h'
        exact Or.inr ⟨List.mem_cons_self _ _, champBeats_refcnt hb⟩
      · exact Or.inr ⟨List.mem_cons_of_mem _ h'.1, h'.2⟩
    · rw [if_neg hb] at h
      rcases ih h with h' | h'
      · exact Or.inl h'
      · exact Or.inr ⟨List.mem_cons_of_mem _ h'.1, h'.2⟩

theorem selMin_min (bufs : Nat → Buf) :
    ∀ {l : List Nat} {acc : Option Nat} {c : Nat}, selMin bufs l acc = some c →
      ∀ j ∈ l, (bufs j).refcnt = 0 → (bufs c).timestamp ≤ (bufs j).timestamp := by
  intro l
  induction l with
  | nil => intro acc c h j hj; simp at hj
  | cons j0 rest ih =>
    intro acc c h j hj hrc
    simp only [selMin] at h
    rcases List.mem_cons.mp hj with rfl | hj'
    · by_cases hb : champBeats bufs acc j = true
      · rw [if_pos hb] at h
        exact selMin_acc_le bufs h
      · rw [if_neg hb] at h
        cases acc with
        | none => exact absurd (champBeats_none.mpr hrc) hb
        | some a =>
          have hna : ¬ ((bufs j).timestamp < (bufs a).timestamp) :=
            fun hlt => hb (champBeats_some.mpr ⟨hrc, hlt⟩)
          exact le_trans (selMin_acc_le bufs h) (Nat.le_of_not_lt hna)
    · by_cases hb : champBeats bufs acc j0 = true
      · rw [if_pos hb] at h; exact ih h j hj' hrc
      · rw [if_neg hb] at h; exact ih h j hj' hrc

theorem selMin_first (bufs : Nat → Buf) :
    ∀ {l : List Nat} {acc : Option Nat} {c : Nat}, selMin bufs l acc = some c →
      acc = some c ∨
        (l.find? (fun j => ((bufs j).refcnt == 0) &&
              ((bufs j).timestamp == (bufs c).timestamp)) = some c ∧
          ∀ a, acc = some a → (bufs c).timestamp < (bufs a).timestamp) := by
  intro l
  induction l with
  | nil => intro acc c h; exact Or.inl h
  | cons j0 rest ih =>
    intro acc c h
    simp only [selMin] at h
    by_cases hb : champBeats bufs acc j0 = true
    · rw [if_pos hb] at h
      rcases ih h with h' | ⟨hf, hlt⟩
      · cases Option.some.inj h'
        refine Or.inr ⟨List.find?_cons_of_pos _ (by simp [champBeats_refcnt hb]), ?_⟩
        intro a ha
        rw [ha] at hb
        exact (champBeats_some.mp hb).2
      · have hj0 : (bufs c).timestamp < (bufs j0).timestamp := hlt j0 rfl
        refine Or.inr ⟨?_, ?_⟩
        · rw [List.find?_cons_of_neg _ (by simp; intro _; omega)]
          exact hf
        · intro a ha
          rw [ha] at hb
          exact lt_trans hj0 (champBeats_some.mp hb).2
    · rw [if_neg hb] at h
      rcases ih h with h' | ⟨hf, hlt⟩
      · exact Or.inl h'
      · refine Or.inr ⟨?_, hlt⟩
        have hpj0 : ¬ (((bufs j0).refcnt == 0) &&
            ((bufs j0).timestamp == (bufs c).timestamp)) = true := by
          intro hp
          simp only [Bool.and_eq_true, beq_iff_eq] at hp
          cases hacc : acc with
          | none =>
            rw [hacc] at hb
            exact hb (champBeats_none.mpr hp.1)
          | some a =>
            rw [hacc] at hb
            have hca := hlt a hacc
            have : (bufs j0).timestamp < (bufs a).timestamp := by omega
            exact hb (champBeats_some.mpr ⟨hp.1, this⟩)
        exact (@List.find?_cons_of_neg Nat
          (fun j => ((bufs j).refcnt == 0) && ((bufs j).timestamp == (bufs c).timestamp))
          j0 rest hpj0).trans hf

theorem selMin_no_reclaimable (bufs : Nat → Buf) :
    ∀ {l : List Nat}, (∀ j ∈ l, (bufs j).refcnt ≠ 0) → ∀ acc, selMin bufs l acc = acc := by
  intro l
  induction l with
  | nil => intro _ acc; rfl
  | cons j rest ih =>
    intro h acc
    simp only [selMin]
    have hb : ¬ champBeats bufs acc j = true :=
      fun hb => absurd (champBeats_refcnt hb) (h j (by simp))
    rw [if_neg hb]
    exact ih (fun j hj => h j (by simp [hj])) acc

theorem scanChain_pos (bufs : Nat → Buf) (bkt : Nat) :
    ∀ (l : List Nat) (pos : Nat) (ch : Option Champ) (c : Champ),
      scanChain bufs bkt pos l ch = some c →
      ch = some c ∨ (c.bkt = bkt ∧ (bufs c.idx).refcnt = 0 ∧
        ∃ k, l[k]? = some c.idx ∧ c.pos = pos + k) := by
  intro l
  induction l with
  | nil => intro pos ch c h; exact Or.inl h
  | cons j rest ih =>
    intro pos ch c h
    simp only [scanChain] at h
    rcases ih (pos + 1) _ c h with h' | ⟨hbkt, hrc, k, hget, hpos⟩
    · by_cases hb : champBeats bufs (ch.map Champ.idx) j = true
      · rw [if_pos hb] at h'
        cases Option.some.inj h'
        exact Or.inr ⟨rfl, champBeats_refcnt hb, 0, by simp, rfl⟩
      · rw [if_neg hb] at h'
        exact Or.inl h'
    · exact Or.inr ⟨hbkt, hrc, k + 1, by simpa using hget, by omega⟩

theorem evictScan_pos (s : BCache) (c : Champ) (h : evictScan s = some c) :
    c.bkt < NBUCKET ∧ (s.chains c.bkt)[c.pos]? = some c.idx ∧
      (s.bufs c.idx).refcnt = 0 := by
  suffices H : ∀ (ks : List Nat) (ch : Option Champ),
      ks.foldl (fun ch k => scanChain s.bufs k 0 (s.chains k) ch) ch = some c →
      ch = some c ∨ (c.bkt ∈ ks ∧ (s.chains c.bkt)[c.pos]? = some c.idx ∧
        (s.bufs c.idx).refcnt = 0) by
    rcases H (List.range NBUCKET) none h with h' | ⟨hmem, hget, hrc⟩
    · exact absurd h' (by simp)
    · exact ⟨List.mem_range.mp hmem, hget, hrc⟩
  intro ks
  induction ks with
  | nil => intro ch h'; exact Or.inl h'
  | cons k ks ih =>
    intro ch h'
    rw [List.foldl_cons] at h'
    rcases ih _ h' with h'' | ⟨hmem, hget, hrc⟩
    · rcases scanChain_pos s.bufs k (s.chains k) 0 ch c h'' with h3 | ⟨hbkt, hrc, k', hget, hpos⟩
      · exact Or.inl h3
      · subst hbkt
        refine Or.inr ⟨by simp, ?_, hrc⟩
        rw [hpos]
        simpa using hget
    · exact Or.inr ⟨by simp [hmem], hget, hrc⟩

/-! ### The three result shapes of bget -/

theorem bget_hit {s : BCache} {dev blockno i : Nat}
    (hfind : findInChain s.bufs (s.chains (hash dev blockno)) dev blockno = some i) :
    bget s dev blockno = some
      (setBuf s i { s.bufs i with refcnt := (s.bufs i).refcnt + 1, lockHeld := true }, i) := by
  simp only [bget]
  rw [hfind]

theorem bget_exhausted {s : BCache} {dev blockno : Nat}
    (hfind : findInChain s.bufs (s.chains (hash dev blockno)) dev blockno = none)
    (hscan : evictScan s = none) :
    bget s dev blockno = none := by
  simp only [bget]
  rw [hfind, hscan]

theorem bget_evict {s : BCache} {dev blockno : Nat} {c : Champ}
    (hfind : findInChain s.bufs (s.chains (hash dev blockno)) dev blockno = none)
    (hscan : evictScan s = some c) :
    ∃ s', bget s dev blockno = some (s', c.idx) ∧
      s'.bufs = upd s.bufs c.idx
        { s.bufs c.idx with dev := dev, blockno := blockno, refcnt := 1, valid := false,
                            lockHeld := true } ∧
      (c.bkt = hash dev blockno → s'.chains = s.chains) ∧
      (c.bkt ≠ hash dev blockno →
        s'.chains = upd (upd s.chains c.bkt ((s.chains c.bkt).eraseIdx c.pos))
          (hash dev blockno) (c.idx :: s.chains (hash dev blockno))) := by
  simp only [bget, hfind, hscan]
  by_cases hbk : c.bkt = hash dev blockno
  · rw [if_neg (not_not_intro hbk)]
    exact ⟨_, rfl, rfl, fun _ => rfl, fun hne => absurd hbk hne⟩
  · rw [if_pos hbk]
    refine ⟨_, rfl, rfl, fun heq => absurd heq hbk, fun _ => ?_⟩
    simp only [setChain, setBuf]
    rw [upd_ne s.chains c.bkt ((s.chains c.bkt).eraseIdx c.pos)
      (show hash dev blockno ≠ c.bkt from fun h => hbk h.symm)]

/-! ### Small facts used by the invariant proof -/

theorem hash_lt (dev blockno : Nat) : hash dev blockno < NBUCKET :=
  Nat.mod_lt _ (by simp [NBUCKET])

theorem mem_scanOrder {s : BCache} {k x : Nat} (hk : k < NBUCKET) (hx : x ∈ s.chains k) :
    x ∈ scanOrder s :=
  List.mem_flatMap.mpr ⟨k, List.mem_range.mpr hk, hx⟩

theorem find?_mono {p p' : Nat → Bool} :
    ∀ {l : List Nat} {k : Nat}, (∀ x ∈ l, p' x = true → p x = true) →
      l.find? p = some k → p' k = true → l.find? p' = some k := by
  intro l
  induction l with
  | nil => intro k _ hfind; simp at hfind
  | cons y l ih =>
    intro k himp hfind hk
    by_cases hpy : p y = true
    · rw [List.find?_cons_of_pos _ hpy] at hfind
      cases Option.some.inj hfind
      exact List.find?_cons_of_pos _ hk
    · rw [List.find?_cons_of_neg _ hpy] at hfind
      have hpy' : ¬ p' y = true := fun h => hpy (himp y (by simp) h)
      rw [List.find?_cons_of_neg _ hpy']
      exact ih (fun x hx => himp x (by simp [hx])) hfind hk

theorem mem_eraseIdx_of_ne :
    ∀ {l : List Nat} {pos k a : Nat}, k ∈ l → l[pos]? = some a → k ≠ a →
      k ∈ l.eraseIdx pos := by
  intro l
  induction l with
  | nil => intro pos k a h; simp at h
  | cons y l ih =>
    intro pos k a hk hget hne
    cases pos with
    | zero =>
      have hya : y = a := by simpa using hget
      rcases List.mem_cons.mp hk with rfl | hk'
      · exact absurd hya hne
      · simpa [List.eraseIdx] using hk'
    | succ pos =>
      simp only [List.getElem?_cons_succ] at hget
      rcases List.mem_cons.mp hk with rfl | hk'
      · simp [List.eraseIdx]
      · simp only [List.eraseIdx]
        exact List.mem_cons_of_mem _ (ih hk' hget hne)

theorem matchesId_eq {bufs : Nat → Buf} {dev blockno j : Nat}
    (h : matchesId bufs dev blockno j = true) :
    (bufs j).dev = dev ∧ (bufs j).blockno = blockno := by
  simpa [matchesId] using h

theorem matchesId_of_eq {bufs : Nat → Buf} {dev blockno j : Nat}
    (h1 : (bufs j).dev = dev) (h2 : (bufs j).blockno = blockno) :
    matchesId bufs dev blockno j = true := by
  simp [matchesId, h1, h2]

theorem matchesId_upd_ne {bufs : Nat → Buf} {i : Nat} {v : Buf} {dev blockno x : Nat}
    (h : x ≠ i) : matchesId (upd bufs i v) dev blockno x = matchesId bufs dev blockno x := by
  simp [matchesId, upd_ne bufs i v h]

/-- A live slot never carries the identity on which the lookup just missed. -/
theorem live_not_requested {s : BCache} {dev blockno : Nat} (hinv : Inv s)
    (hf : findInChain s.bufs (s.chains (hash dev blockno)) dev blockno = none) :
    ∀ k, 0 < (s.bufs k).refcnt →
      ¬ ((s.bufs k).dev = dev ∧ (s.bufs k).blockno = blockno) := by
  intro k hlive ⟨hd, hb⟩
  have h3 := hinv.2.2.1 k hlive
  rw [bucketOf, hd, hb] at h3
  rw [h3] at hf
  exact Option.noConfusion hf

/-! ### Preservation of the invariant -/

theorem findInChain_congr {bufs bufs' : Nat → Buf}
    (hid : ∀ k, (bufs' k).dev = (bufs k).dev ∧ (bufs' k).blockno = (bufs k).blockno)
    (c : List Nat) (dev blockno : Nat) :
    findInChain bufs' c dev blockno = findInChain bufs c dev blockno :=
  find?_congr_on (fun x _ => by simp [matchesId, (hid x).1, (hid x).2])

theorem inv_transport {s s' : BCache}
    (hch : s'.chains = s.chains)
    (hid : ∀ k, (s'.bufs k).dev = (s.bufs k).dev ∧ (s'.bufs k).blockno = (s.bufs k).blockno)
    (hlive : ∀ k, 0 < (s'.bufs k).refcnt → 0 < (s.bufs k).refcnt)
    (hdead : ∀ k, (s.bufs k).refcnt = 0 → (s'.bufs k).refcnt = 0)
    (hinv : Inv s) : Inv s' := by
  obtain ⟨h1, h2, h3, h4⟩ := hinv
  have hsc : scanOrder s' = scanOrder s := by rw [scanOrder, scanOrder, hch]
  have hbk : ∀ k, bucketOf s' k = bucketOf s k := fun k => by
    rw [bucketOf, bucketOf, (hid k).1, (hid k).2]
  refine ⟨?_, ?_, ?_, ?_⟩
  · rw [hsc]; exact h1
  · rw [hsc]; exact h2
  · intro k hk
    rw [hbk k, hch, (hid k).1, (hid k).2, findInChain_congr hid]
    exact h3 k (hlive k hk)
  · intro k hk
    rcases h4 k hk with ⟨hd, hb, hr⟩ | hmem
    · exact Or.inl ⟨(hid k).1.trans hd, (hid k).2.trans hb, hdead k hr⟩
    · right
      rw [hbk k, hch]
      exact hmem

theorem inv_bpin {s : BCache} {i : Nat} (hinv : Inv s) (hpre : 0 < (s.bufs i).refcnt) :
    Inv (bpin s i) := by
  refine inv_transport ?_ ?_ ?_ ?_ hinv
  · rfl
  · intro k
    by_cases hk : k = i
    · subst hk; simp [bpin, setBuf, upd_same]
    · simp [bpin, setBuf, upd_ne _ _ _ hk]
  · intro k hk
    by_cases hki : k = i
    · subst hki; exact hpre
    · simpa [bpin, setBuf, upd_ne _ _ _ hki] using hk
  · intro k hk
    by_cases hki : k = i
    · subst hki; exact absurd hpre (by omega)
    · simpa [bpin, setBuf, upd_ne _ _ _ hki] using hk

theorem inv_bunpin {s : BCache} {i : Nat} (hinv : Inv s) : Inv (bunpin s i) := by
  refine inv_transport ?_ ?_ ?_ ?_ hinv
  · rfl
  · intro k
    by_cases hk : k = i
    · subst hk; simp [bunpin, setBuf, upd_same]
    · simp [bunpin, setBuf, upd_ne _ _ _ hk]
  · intro k hk
    by_cases hki : k = i
    · subst hki
      simp only [bunpin, setBuf, upd_same] at hk
      omega
    · simpa [bunpin, setBuf, upd_ne _ _ _ hki] using hk
  · intro k hk
    by_cases hki : k = i
    · subst hki; simp [bunpin, setBuf, upd_same, hk]
    · simpa [bunpin, setBuf, upd_ne _ _ _ hki] using hk

theorem brelse_inv_eq {ticks : Nat} {s s' : BCache} {i : Nat}
    (h : brelse ticks s i = some s') :
    (s.bufs i).lockHeld = true ∧
    s' = setBuf s i
      { s.bufs i with
        lockHeld := false,
        refcnt := (s.bufs i).refcnt - 1,
        timestamp := if (s.bufs i).refcnt - 1 = 0 then ticks else (s.bufs i).timestamp } := by
  by_cases hl : (s.bufs i).lockHeld
  · refine ⟨hl, ?_⟩
    simp only [brelse, if_pos hl] at h
    exact (Option.some.inj h).symm
  · simp [brelse, hl] at h

theorem inv_brelse {ticks : Nat} {s s' : BCache} {i : Nat} (hinv : Inv s)
    (h : brelse ticks s i = some s') : Inv s' := by
  obtain ⟨-, rfl⟩ := brelse_inv_eq h
  refine inv_transport ?_ ?_ ?_ ?_ hinv
  · rfl
  · intro k
    by_cases hk : k = i
    · subst hk; simp [setBuf, upd_same]
    · simp [setBuf, upd_ne _ _ _ hk]
  · intro k hk
    by_cases hki : k = i
    · subst hki
      simp only [setBuf, upd_same] at hk
      omega
    · simpa [setBuf, upd_ne _ _ _ hki] using hk
  · intro k hk
    by_cases hki : k = i
    · subst hki; simp [setBuf, upd_same, hk]
    · simpa [setBuf, upd_ne _ _ _ hki] using hk

theorem inv_bget_hit {s : BCache} {dev blockno j : Nat} (hinv : Inv s)
    (hf : findInChain s.bufs (s.chains (hash dev blockno)) dev blockno = some j) :
    Inv (setBuf s j { s.bufs j with refcnt := (s.bufs j).refcnt + 1, lockHeld := true }) := by
  obtain ⟨h1, h2, h3, h4⟩ := hinv
  obtain ⟨hd, hb⟩ := matchesId_eq (List.find?_some hf)
  have hmem : j ∈ s.chains (hash dev blockno) := List.mem_of_find?_eq_some hf
  set s' := setBuf s j { s.bufs j with refcnt := (s.bufs j).refcnt + 1, lockHeld := true }
    with hs'
  have hid : ∀ k, (s'.bufs k).dev = (s.bufs k).dev ∧ (s'.bufs k).blockno = (s.bufs k).blockno := by
    intro k
    by_cases hk : k = j
    · subst hk; simp [hs', setBuf, upd_same]
    · simp [hs', setBuf, upd_ne _ _ _ hk]
  have hch : s'.chains = s.chains := rfl
  have hbk : ∀ k, bucketOf s' k = bucketOf s k := fun k => by
    rw [bucketOf, bucketOf, (hid k).1, (hid k).2]
  refine ⟨h1, h2, ?_, ?_⟩
  · intro k hk
    rw [hbk k, hch, (hid k).1, (hid k).2, findInChain_congr hid]
    by_cases hkj : k = j
    · subst hkj
      rw [bucketOf, hd, hb]
      exact hf
    · refine h3 k ?_
      simpa [hs', setBuf, upd_ne _ _ _ hkj] using hk
  · intro k hk
    by_cases hkj : k = j
    · subst hkj
      right
      rw [hbk k, hch, bucketOf, hd, hb]
      exact hmem
    · rcases h4 k hk with ⟨hd0, hb0, hr0⟩ | hm
      · exact Or.inl ⟨(hid k).1.trans hd0, (hid k).2.trans hb0,
          by simpa [hs', setBuf, upd_ne _ _ _ hkj] using hr0⟩
      · right
        rw [hbk k, hch]
        exact hm

theorem inv_bget_evict {s : BCache} {dev blockno : Nat} {c : Champ} (hinv : Inv s)
    (hf : findInChain s.bufs (s.chains (hash dev blockno)) dev blockno = none)
    (hscan : evictScan s = some c)
    {s' : BCache}
    (hbufs : s'.bufs = upd s.bufs c.idx
      { s.bufs c.idx with dev := dev, blockno := blockno, refcnt := 1, valid := false,
                          lockHeld := true })
    (hcheq : c.bkt = hash dev blockno → s'.chains = s.chains)
    (hchne : c.bkt ≠ hash dev blockno →
      s'.chains = upd (upd s.chains c.bkt ((s.chains c.bkt).eraseIdx c.pos))
        (hash dev blockno) (c.idx :: s.chains (hash dev blockno))) :
    Inv s' := by
  obtain ⟨h1, h2, h3, h4⟩ := hinv
  obtain ⟨hcb, hcp, hrz⟩ := evictScan_pos s c hscan
  have hh : hash dev blockno < NBUCKET := hash_lt dev blockno
  have hcmem : c.idx ∈ s.chains c.bkt := List.getElem?_mem hcp
  have hclt : c.idx < NBUF := h1 _ (mem_scanOrder hcb hcmem)
  have hbo : ∀ k, k ≠ c.idx → s'.bufs k = s.bufs k := fun k hk => by
    rw [hbufs]; exact upd_ne _ _ _ hk
  have hbc : s'.bufs c.idx
      = { s.bufs c.idx with
          dev := dev, blockno := blockno, refcnt := 1, valid := false, lockHeld := true } := by
    rw [hbufs]; exact upd_same _ _ _
  have hknr := live_not_requested ⟨h1, h2, h3, h4⟩ hf
  have hpc : matchesId s'.bufs dev blockno c.idx = true :=
    matchesId_of_eq (by rw [hbc]) (by rw [hbc])
  have hpredc : ∀ d0 b0, ¬ (d0 = dev ∧ b0 = blockno) →
      matchesId s'.bufs d0 b0 c.idx = false := by
    intro d0 b0 hn
    refine Bool.eq_false_iff.mpr (fun hm => ?_)
    obtain ⟨x, y⟩ := matchesId_eq hm
    rw [hbc] at x y
    exact hn ⟨x.symm, y.symm⟩
  have hpredo : ∀ d0 b0 x, x ≠ c.idx →
      matchesId s'.bufs d0 b0 x = matchesId s.bufs d0 b0 x := by
    intro d0 b0 x hx
    rw [hbufs]
    exact matchesId_upd_ne hx
  have htrans : ∀ k, 0 < (s.bufs k).refcnt → k ≠ c.idx → ∀ chain : List Nat,
      chain.find? (matchesId s.bufs (s.bufs k).dev (s.bufs k).blockno) = some k →
      chain.find? (matchesId s'.bufs (s.bufs k).dev (s.bufs k).blockno) = some k := by
    intro k hlv hkc chain hfind
    refine find?_mono ?_ hfind ?_
    · intro x _ hx
      by_cases hxc : x = c.idx
      · subst hxc
        rw [hpredc _ _ (hknr k hlv)] at hx
        exact absurd hx (by simp)
      · rwa [hpredo _ _ x hxc] at hx
    · rw [hpredo _ _ k hkc]
      exact matchesId_of_eq rfl rfl
  have hboc : bucketOf s' c.idx = hash dev blockno := by
    rw [bucketOf, hbc]
  have hboo : ∀ k, k ≠ c.idx → bucketOf s' k = bucketOf s k := fun k hk => by
    rw [bucketOf, bucketOf, hbo k hk]
  by_cases hq : c.bkt = hash dev blockno
  · -- champion already lives in the requested bucket: chains untouched
    have hch := hcheq hq
    have hso : scanOrder s' = scanOrder s := by rw [scanOrder, scanOrder, hch]
    refine ⟨by rw [hso]; exact h1, by rw [hso]; exact h2, ?_, ?_⟩
    · intro k hk
      by_cases hkc : k = c.idx
      · subst hkc
        rw [hboc, hch]
        rw [show (s'.bufs c.idx).dev = dev from by rw [hbc],
            show (s'.bufs c.idx).blockno = blockno from by rw [hbc]]
        refine find?_of_unique (by rw [← hq]; exact hcmem) hpc ?_
        intro x hx hxc
        rw [hpredo dev blockno x hxc]
        have h0 := List.find?_eq_none.mp hf x hx
        cases hmx : matchesId s.bufs dev blockno x
        · rfl
        · exact absurd hmx h0
      · have hk' : 0 < (s.bufs k).refcnt := by rw [← hbo k hkc]; exact hk
        rw [hboo k hkc, hch, hbo k hkc]
        exact htrans k hk' hkc _ (h3 k hk')
    · intro k hk
      by_cases hkc : k = c.idx
      · subst hkc
        right
        rw [hboc, hch, ← hq]
        exact hcmem
      · rcases h4 k hk with ⟨hd0, hb0, hr0⟩ | hm
        · left
          rw [hbo k hkc]
          exact ⟨hd0, hb0, hr0⟩
        · right
          rw [hboo k hkc, hch]
          exact hm
  · -- relocation: unlink from the champion bucket, splice onto the requested chain
    have hch := hchne hq
    have hschh : s'.chains (hash dev blockno) = c.idx :: s.chains (hash dev blockno) := by
      rw [hch]; exact upd_same _ _ _
    have hsccb : s'.chains c.bkt = (s.chains c.bkt).eraseIdx c.pos := by
      rw [hch, upd_ne _ _ _ hq]
      exact upd_same _ _ _
    have hsco : ∀ k, k ≠ hash dev blockno → k ≠ c.bkt → s'.chains k = s.chains k := by
      intro k hk1 hk2
      rw [hch, upd_ne _ _ _ hk1, upd_ne _ _ _ hk2]
    refine ⟨?_, ?_, ?_, ?_⟩
    · intro j hj
      obtain ⟨k, hkr, hjk⟩ := List.mem_flatMap.mp hj
      have hkN := List.mem_range.mp hkr
      by_cases hkh : k = hash dev blockno
      · subst hkh
        rw [hschh] at hjk
        rcases List.mem_cons.mp hjk with rfl | hjk'
        · exact hclt
        · exact h1 _ (mem_scanOrder hkN hjk')
      · by_cases hkcb : k = c.bkt
        · subst hkcb
          rw [hsccb] at hjk
          exact h1 _ (mem_scanOrder hkN (List.mem_of_mem_eraseIdx hjk))
        · rw [hsco k hkh hkcb] at hjk
          exact h1 _ (mem_scanOrder hkN hjk)
    · intro x hx
      have hnd := List.nodup_range NBUCKET
      have hHm : hash dev blockno ∈ List.range NBUCKET := List.mem_range.mpr hh
      have hcbm : c.bkt ∈ List.range NBUCKET := List.mem_range.mpr hcb
      have e1 : ((List.range NBUCKET).flatMap
            (upd (upd s.chains c.bkt ((s.chains c.bkt).eraseIdx c.pos)) (hash dev blockno)
              (c.idx :: s.chains (hash dev blockno)))).count x
          + ((upd s.chains c.bkt ((s.chains c.bkt).eraseIdx c.pos))
              (hash dev blockno)).count x
        = ((List.range NBUCKET).flatMap
            (upd s.chains c.bkt ((s.chains c.bkt).eraseIdx c.pos))).count x
          + (c.idx :: s.chains (hash dev blockno)).count x :=
        count_flatMap_upd x hnd hHm
      have e2 : ((List.range NBUCKET).flatMap
            (upd s.chains c.bkt ((s.chains c.bkt).eraseIdx c.pos))).count x
          + (s.chains c.bkt).count x
        = ((List.range NBUCKET).flatMap s.chains).count x
          + ((s.chains c.bkt).eraseIdx c.pos).count x :=
        count_flatMap_upd x hnd hcbm
      have eAH : (upd s.chains c.bkt ((s.chains c.bkt).eraseIdx c.pos)) (hash dev blockno)
          = s.chains (hash dev blockno) := upd_ne _ _ _ (fun hx2 => hq hx2.symm)
      rw [eAH] at e1
      have h2x : ((List.range NBUCKET).flatMap s.chains).count x = 1 := h2 x hx
      have hgoal : (scanOrder s').count x
          = ((List.range NBUCKET).flatMap
              (upd (upd s.chains c.bkt ((s.chains c.bkt).eraseIdx c.pos)) (hash dev blockno)
                (c.idx :: s.chains (hash dev blockno)))).count x := by
        rw [scanOrder, hch]
      rw [hgoal]
      by_cases hxc : x = c.idx
      · subst hxc
        have ee : ((s.chains c.bkt).eraseIdx c.pos).count c.idx + 1
            = (s.chains c.bkt).count c.idx := count_eraseIdx_self hcp
        have ec : (c.idx :: s.chains (hash dev blockno)).count c.idx
            = (s.chains (hash dev blockno)).count c.idx + 1 := List.count_cons_self _ _
        omega
      · have ee : ((s.chains c.bkt).eraseIdx c.pos).count x
            = (s.chains c.bkt).count x := count_eraseIdx_ne hcp hxc
        have ec : (c.idx :: s.chains (hash dev blockno)).count x
            = (s.chains (hash dev blockno)).count x := by
          rw [List.count_cons, beq_eq_false_iff_ne.mpr (fun h => hxc h.symm)]
          simp
        omega
    · intro k hk
      by_cases hkc : k = c.idx
      · subst hkc
        rw [hboc]
        rw [show (s'.bufs c.idx).dev = dev from by rw [hbc],
            show (s'.bufs c.idx).blockno = blockno from by rw [hbc], hschh]
        exact List.find?_cons_of_pos _ hpc
      · have hk' : 0 < (s.bufs k).refcnt := by rw [← hbo k hkc]; exact hk
        rw [hboo k hkc, hbo k hkc]
        have hbase := htrans k hk' hkc _ (h3 k hk')
        simp only [findInChain]
        by_cases hbh : bucketOf s k = hash dev blockno
        · rw [hbh, hschh]
          rw [List.find?_cons_of_neg _ (by simp [hpredc _ _ (hknr k hk')])]
          rw [← hbh]
          exact hbase
        · by_cases hbcb : bucketOf s k = c.bkt
          · rw [hbcb, hsccb]
            rw [hbcb] at hbase
            exact find?_eraseIdx_ne hbase hcp (fun h => hkc h.symm)
          · rw [hsco _ hbh hbcb]
            exact hbase
    · intro k hk
      by_cases hkc : k = c.idx
      · subst hkc
        right
        rw [hboc, hschh]
        exact List.mem_cons_self _ _
      · rcases h4 k hk with ⟨hd0, hb0, hr0⟩ | hm
        · left
          rw [hbo k hkc]
          exact ⟨hd0, hb0, hr0⟩
        · right
          rw [hboo k hkc]
          by_cases hbh : bucketOf s k = hash dev blockno
          · rw [hbh, hschh]
            rw [hbh] at hm
            exact List.mem_cons_of_mem _ hm
          · by_cases hbcb : bucketOf s k = c.bkt
            · rw [hbcb, hsccb]
              rw [hbcb] at hm
              exact mem_eraseIdx_of_ne hm hcp hkc
            · rw [hsco _ hbh hbcb]
              exact hm

theorem inv_bget {s s' : BCache} {dev blockno i : Nat} (hinv : Inv s)
    (h : bget s dev blockno = some (s', i)) : Inv s' := by
  cases hf : findInChain s.bufs (s.chains (hash dev blockno)) dev blockno with
  | some j =>
    rw [bget_hit hf] at h
    injection h with h0
    injection h0 with h1 h2
    rw [← h1]
    exact inv_bget_hit hinv hf
  | none =>
    cases hsc : evictScan s with
    | none =>
      rw [bget_exhausted hf hsc] at h
      exact Option.noConfusion h
    | some c =>
      obtain ⟨S, heq, hbufs, hcheq, hchne⟩ := bget_evict hf hsc
      rw [heq] at h
      injection h with h0
      injection h0 with h1 h2
      rw [← h1]
      exact inv_bget_evict hinv hf hsc hbufs hcheq hchne

theorem inv_step {s s' : BCache} (hinv : Inv s) (hstep : Step s s') : Inv s' := by
  cases hstep with
  | bget dev blockno s2 i h => exact inv_bget hinv h
  | brelse ticks i s2 hpre h => exact inv_brelse hinv h
  | bpin i hpre => exact inv_bpin hinv hpre
  | bunpin i hpre => exact inv_bunpin hinv

theorem inv_init : Inv binitState := by
  refine ⟨by decide, by decide, ?_, ?_⟩
  · intro i hi
    simp [binitState, initBuf] at hi
  · intro i _
    exact Or.inl ⟨rfl, rfl, rfl⟩

theorem reachable_inv {s : BCache} (h : Reachable s) : Inv s := by
  induction h with
  | init => exact inv_init
  | step hr hs ih => exact inv_step ih hs

/-- Facts about every successful bget return: the returned slot carries the
requested identity, its blocking lock is held, and it sits in the chain of
the bucket the requested identity hashes to. -/
theorem bget_props {s s' : BCache} {dev blockno i : Nat}
    (h : bget s dev blockno = some (s', i)) :
    (s'.bufs i).dev = dev ∧ (s'.bufs i).blockno = blockno ∧ (s'.bufs i).lockHeld = true ∧
      i ∈ s'.chains (hash dev blockno) := by
  cases hf : findInChain s.bufs (s.chains (hash dev blockno)) dev blockno with
  | some j =>
    rw [bget_hit hf] at h
    injection h with h0
    injection h0 with h1 h2
    subst h2
    obtain ⟨hd, hb⟩ := matchesId_eq (List.find?_some hf)
    have hmem := List.mem_of_find?_eq_some hf
    rw [← h1]
    refine ⟨?_, ?_, ?_, ?_⟩
    · simp [setBuf, upd_same, hd]
    · simp [setBuf, upd_same, hb]
    · simp [setBuf, upd_same]
    · exact hmem
  | none =>
    cases hsc : evictScan s with
    | none =>
      rw [bget_exhausted hf hsc] at h
      exact Option.noConfusion h
    | some c =>
      obtain ⟨S, heq, hbufs, hcheq, hchne⟩ := bget_evict hf hsc
      obtain ⟨hcb, hcp, -⟩ := evictScan_pos s c hsc
      rw [heq] at h
      injection h with h0
      injection h0 with h1 h2
      subst h2
      rw [← h1]
      refine ⟨?_, ?_, ?_, ?_⟩
      · rw [hbufs, upd_same]
      · rw [hbufs, upd_same]
      · rw [hbufs, upd_same]
      · by_cases hq : c.bkt = hash dev blockno
        · rw [hcheq hq, ← hq]
          exact List.getElem?_mem hcp
        · rw [hchne hq, upd_same]
          exact List.mem_cons_self _ _

/-! ### The claims -/

/-- C1, counterexample: the claim as stated is false on the code.  After
binit, every slot carries the zero-initialized identity (0,0); bget (0,0)
then hits slot 26 (the head of bucket 0's chain) and gives (0,0) a live
reference, yet slot 0 — a different slot — still carries the identity
(0,0), so more than one slot in the pool carries a live identity. -/
theorem claim1_counterexample :
    Reachable st1 ∧ 0 < (st1.bufs 26).refcnt ∧
      (st1.bufs 26).dev = 0 ∧ (st1.bufs 26).blockno = 0 ∧
      (st1.bufs 0).dev = 0 ∧ (st1.bufs 0).blockno = 0 ∧ (0 : Nat) ≠ 26 :=
  ⟨Reachable.step Reachable.init (Step.bget binitState 0 0 st1 26 rfl),
    by decide, by decide, by decide, by decide, by decide, by decide⟩

/-- C1, amended: at every reachable state, for every (device, block_number)
pair, at most one slot that holds a live reference (ref_count > 0) carries
that identity: two live slots with equal identity are the same slot.
(Slots with ref_count = 0 may duplicate the identity, as the
zero-initialized startup slots show.) -/
theorem claim1_live_uniqueness : ∀ s : BCache, Reachable s → ∀ i j : Nat,
    0 < (s.bufs i).refcnt → 0 < (s.bufs j).refcnt →
    (s.bufs i).dev = (s.bufs j).dev → (s.bufs i).blockno = (s.bufs j).blockno → i = j := by
  intro s hs i j hi hj hd hb
  obtain ⟨-, -, h3, -⟩ := reachable_inv hs
  have hfi := h3 i hi
  have hfj := h3 j hj
  rw [bucketOf, hd, hb] at hfi
  rw [bucketOf] at hfj
  rw [hfj] at hfi
  exact (Option.some.inj hfi).symm

/-- C1, witness: the amended uniqueness applied at the reachable state after
bget (0,0), where slot 26 is the unique live carrier of (0,0). -/
theorem claim1_witness : (26 : Nat) = 26 :=
  claim1_live_uniqueness st1
    (Reachable.step Reachable.init (Step.bget binitState 0 0 st1 26 rfl))
    26 26 (by decide) (by decide) rfl rfl

/-- C2: whenever the eviction scan selects a champion, that champion's
ref_count is zero at scan time; consequently no slot with a positive
ref_count is ever the selected champion. -/
theorem claim2_no_live_eviction : ∀ (s : BCache) (c : Champ), evictScan s = some c →
    (s.bufs c.idx).refcnt = 0 ∧ ∀ j : Nat, 0 < (s.bufs j).refcnt → j ≠ c.idx := by
  intro s c h
  have hz := (evictScan_pos s c h).2.2
  refine ⟨hz, fun j hj heq => ?_⟩
  rw [heq] at hj
  omega

/-- C2, witness: on the freshly initialized cache the scan selects slot 26
in bucket 0, and indeed its refcount is zero. -/
theorem claim2_witness :
    (binitState.bufs 26).refcnt = 0 ∧
      ∀ j : Nat, 0 < (binitState.bufs j).refcnt → j ≠ 26 := by
  have H := claim2_no_live_eviction binitState ⟨0, 0, 26⟩ (by decide)
  exact H

/-- C3: the champion the eviction scan returns is reclaimable, occurs in
the scan order (all bucket chains in bucket-index order), has the minimal
timestamp among all reclaimable slots, and is the first slot in scan order
attaining that minimal timestamp — strictly smaller timestamps are required
to displace a champion, so ties keep the earlier-found candidate. -/
theorem claim3_lru_first_min : ∀ (s : BCache) (c : Champ), evictScan s = some c →
    (s.bufs c.idx).refcnt = 0 ∧ c.idx ∈ scanOrder s ∧
    (∀ j ∈ scanOrder s, (s.bufs j).refcnt = 0 →
      (s.bufs c.idx).timestamp ≤ (s.bufs j).timestamp) ∧
    (scanOrder s).find? (fun j => ((s.bufs j).refcnt == 0) &&
      ((s.bufs j).timestamp == (s.bufs c.idx).timestamp)) = some c.idx := by
  intro s c h
  have hm : selMin s.bufs (scanOrder s) none = some c.idx := by
    have hmap := evictScan_map s
    rw [h] at hmap
    exact hmap.symm
  rcases selMin_cases s.bufs hm with h' | ⟨hmem, hz⟩
  · exact absurd h' (by simp)
  · refine ⟨hz, hmem, selMin_min s.bufs hm, ?_⟩
    rcases selMin_first s.bufs hm with h' | ⟨hfst, -⟩
    · exact absurd h' (by simp)
    · exact hfst

/-- C3, witness: on the freshly initialized cache (all timestamps 0) the
first reclaimable slot in scan order, slot 26 at the head of bucket 0,
is the selected champion. -/
theorem claim3_witness :
    (binitState.bufs 26).refcnt = 0 ∧ (26 : Nat) ∈ scanOrder binitState := by
  have H := claim3_lru_first_min binitState ⟨0, 0, 26⟩ (by decide)
  exact ⟨H.1, H.2.1⟩

/-- C4: on a true miss (the bucket-chain lookup finds no match) that
returns, the returned slot i carries the requested identity with
valid = false and ref_count = 1; it is a member of the chain the new
identity hashes to and of no other chain; and it is the eviction champion,
whose chains were rewritten by unlink-and-splice exactly when the champion
bucket differs from the target bucket, and left untouched when they are
equal. -/
theorem claim4_true_miss : ∀ (s : BCache) (dev blockno : Nat) (s' : BCache) (i : Nat),
    Inv s →
    findInChain s.bufs (s.chains (hash dev blockno)) dev blockno = none →
    bget s dev blockno = some (s', i) →
    (s'.bufs i).dev = dev ∧ (s'.bufs i).blockno = blockno ∧
    (s'.bufs i).valid = false ∧ (s'.bufs i).refcnt = 1 ∧
    i ∈ s'.chains (hash dev blockno) ∧
    (∀ k, k < NBUCKET → k ≠ hash dev blockno → i ∉ s'.chains k) ∧
    ∃ c : Champ, evictScan s = some c ∧ c.idx = i ∧
      (c.bkt = hash dev blockno → s'.chains = s.chains) ∧
      (c.bkt ≠ hash dev blockno →
        s'.chains = upd (upd s.chains c.bkt ((s.chains c.bkt).eraseIdx c.pos))
          (hash dev blockno) (c.idx :: s.chains (hash dev blockno))) := by
  intro s dev blockno s' i hinv hf h
  cases hsc : evictScan s with
  | none =>
    rw [bget_exhausted hf hsc] at h
    exact Option.noConfusion h
  | some c =>
    obtain ⟨S, heq, hbufs, hcheq, hchne⟩ := bget_evict hf hsc
    obtain ⟨hcb, hcp, -⟩ := evictScan_pos s c hsc
    rw [heq] at h
    injection h with h0
    injection h0 with h1 h2
    subst h2
    subst h1
    have hinv' : Inv S := inv_bget_evict hinv hf hsc hbufs hcheq hchne
    have hmem : c.idx ∈ S.chains (hash dev blockno) := (bget_props heq).2.2.2
    have hclt : c.idx < NBUF :=
      hinv.1 _ (mem_scanOrder hcb (List.getElem?_mem hcp))
    refine ⟨by rw [hbufs, upd_same], by rw [hbufs, upd_same],
      by rw [hbufs, upd_same], by rw [hbufs, upd_same], hmem, ?_, c, rfl, rfl, hcheq, hchne⟩
    intro k hk hkh hmem'
    have hcount := hinv'.2.1 c.idx hclt
    have h2le : 2 ≤ (scanOrder S).count c.idx :=
      two_le_count_flatMap c.idx (List.nodup_range NBUCKET)
        (List.mem_range.mpr (hash_lt dev blockno)) (List.mem_range.mpr hk)
        (fun hx => hkh hx.symm) hmem hmem'
    omega

/-- C4, witness: bget (0,1) on the freshly initialized cache misses, evicts
slot 26 from bucket 0 and relocates it into bucket 1, rebinding it to
(0,1) with valid = false and ref_count = 1. -/
theorem claim4_witness :
    (st2.bufs 26).dev = 0 ∧ (st2.bufs 26).blockno = 1 ∧ (st2.bufs 26).valid = false ∧
      (st2.bufs 26).refcnt = 1 ∧ (26 : Nat) ∈ st2.chains (hash 0 1) := by
  have H := claim4_true_miss binitState 0 1 st2 26 inv_init (by decide) rfl
  exact ⟨H.1, H.2.1, H.2.2.1, H.2.2.2.1, H.2.2.2.2.1⟩

/-- C5, counterexample: the claim as stated is false on the code.  binit
distributes the slots round-robin over the buckets without touching their
zero-initialized identities, so already in the reachable startup state slot
1 sits in bucket 1's chain while its identity (0,0) hashes to bucket 0, and
no relocation is in flight. -/
theorem claim5_counterexample :
    Reachable binitState ∧ 1 ∈ binitState.chains 1 ∧
      hash (binitState.bufs 1).dev (binitState.bufs 1).blockno = 0 ∧
      1 ∉ binitState.chains 0 :=
  ⟨Reachable.init, by decide, by decide, by decide⟩

/-- C5, amended: at every reachable state, every slot of the pool either
still carries the zero-initialized startup identity (0,0) with no live
reference, or resides in the chain of the bucket its current identity
hashes to.  In particular every slot with a live reference is in its hash
bucket's chain. -/
theorem claim5_placement : ∀ s : BCache, Reachable s → ∀ i : Nat, i < NBUF →
    ((s.bufs i).dev = 0 ∧ (s.bufs i).blockno = 0 ∧ (s.bufs i).refcnt = 0) ∨
      i ∈ s.chains (hash (s.bufs i).dev (s.bufs i).blockno) := by
  intro s hs i hi
  exact (reachable_inv hs).2.2.2 i hi

/-- C5, witness: the amended placement applied to slot 26 after the
eviction bget (0,1): the slot was relocated, so it resides in the chain its
new identity (0,1) hashes to. -/
theorem claim5_witness :
    ((st2.bufs 26).dev = 0 ∧ (st2.bufs 26).blockno = 0 ∧ (st2.bufs 26).refcnt = 0) ∨
      26 ∈ st2.chains (hash (st2.bufs 26).dev (st2.bufs 26).blockno) :=
  claim5_placement st2
    (Reachable.step Reachable.init (Step.bget binitState 0 1 st2 26 rfl)) 26 (by decide)

/-- C6: when every chained slot holds a live reference and the lookup
misses, bget returns none — the model of panic("bget: no buffers") — rather
than retrying or producing a slot. -/
theorem claim6_capacity_panic : ∀ (s : BCache) (dev blockno : Nat),
    (∀ j ∈ scanOrder s, 0 < (s.bufs j).refcnt) →
    findInChain s.bufs (s.chains (hash dev blockno)) dev blockno = none →
    bget s dev blockno = none := by
  intro s dev blockno hall hf
  have hsel : selMin s.bufs (scanOrder s) none = none :=
    selMin_no_reclaimable s.bufs (fun j hj => by have := hall j hj; omega) none
  cases hev : evictScan s with
  | none => exact bget_exhausted hf hev
  | some c =>
    have hmap := evictScan_map s
    rw [hev, hsel] at hmap
    exact absurd hmap (by simp)

/-- C6, witness: a pool whose only chained slot is live faults on a miss. -/
theorem claim6_witness : bget stFull 0 1 = none :=
  claim6_capacity_panic stFull 0 1 (by decide) (by decide)

/-- C7: every successful bread returns a slot with valid = true; the
device-read collaborator is invoked exactly when the slot bget returned was
not yet valid (and then the payload is the device's content for the
requested block), and when the slot was already valid the state bget
produced is returned unchanged — no device read occurs. -/
theorem claim7_bread_valid : ∀ (disk : Nat → Nat → Nat) (s : BCache) (dev blockno : Nat)
    (s2 : BCache) (i : Nat) (r : Bool),
    bread disk s dev blockno = some (s2, i, r) →
    (s2.bufs i).valid = true ∧
    ∃ s1, bget s dev blockno = some (s1, i) ∧
      ((r = false ∧ (s1.bufs i).valid = true ∧ s2 = s1) ∨
       (r = true ∧ (s1.bufs i).valid = false ∧ (s2.bufs i).data = disk dev blockno)) := by
  intro disk s dev blockno s2 i r h
  cases hb : bget s dev blockno with
  | none => simp [bread, hb] at h
  | some p =>
    obtain ⟨s1, j⟩ := p
    simp only [bread, hb] at h
    by_cases hv : (s1.bufs j).valid = true
    · rw [if_pos hv] at h
      injection h with h0
      injection h0 with h1 h2
      injection h2 with h3 h4
      subst h1
      subst h3
      exact ⟨hv, s1, rfl, Or.inl ⟨h4.symm, hv, rfl⟩⟩
    · rw [if_neg hv] at h
      injection h with h0
      injection h0 with h1 h2
      injection h2 with h3 h4
      subst h3
      rw [← h1]
      obtain ⟨hd, hbn, -, -⟩ := bget_props hb
      refine ⟨by simp [setBuf, upd_same], s1, rfl,
        Or.inr ⟨h4.symm, by simpa using hv, ?_⟩⟩
      simp [setBuf, upd_same, hd, hbn]

/-- C7, witness: bread (0,0) on the freshly initialized cache hits the
invalid slot 26, invokes the device read and returns it valid with the
device's payload. -/
theorem claim7_witness :
    (st3.bufs 26).valid = true ∧ (st3.bufs 26).data = diskC 0 0 := by
  have H := claim7_bread_valid diskC binitState 0 0 st3 26 true rfl
  rcases H.2 with ⟨s1, -, h | h⟩
  · exact absurd h.1 (by decide)
  · exact ⟨H.1, h.2.2⟩

/-- C8: brelse without the blocking lock held is the fatal contract fault
(none); with it held, brelse releases the lock, decrements ref_count, and
stamps the recency timestamp with the tick source exactly when the
decremented count is zero, leaving identity, validity, payload, all other
slots and all chains unchanged. -/
theorem claim8_brelse_contract : ∀ (ticks : Nat) (s : BCache) (i : Nat),
    ((s.bufs i).lockHeld = false → brelse ticks s i = none) ∧
    ((s.bufs i).lockHeld = true → ∃ s', brelse ticks s i = some s' ∧
      (s'.bufs i).lockHeld = false ∧
      (s'.bufs i).refcnt = (s.bufs i).refcnt - 1 ∧
      ((s.bufs i).refcnt - 1 = 0 → (s'.bufs i).timestamp = ticks) ∧
      ((s.bufs i).refcnt - 1 ≠ 0 → (s'.bufs i).timestamp = (s.bufs i).timestamp) ∧
      (s'.bufs i).dev = (s.bufs i).dev ∧ (s'.bufs i).blockno = (s.bufs i).blockno ∧
      (s'.bufs i).valid = (s.bufs i).valid ∧ (s'.bufs i).data = (s.bufs i).data ∧
      (∀ j, j ≠ i → s'.bufs j = s.bufs j) ∧ s'.chains = s.chains) := by
  intro ticks s i
  constructor
  · intro hl
    simp [brelse, hl]
  · intro hl
    refine ⟨setBuf s i
      { s.bufs i with
        lockHeld := false, refcnt := (s.bufs i).refcnt - 1,
        timestamp := if (s.bufs i).refcnt - 1 = 0 then ticks else (s.bufs i).timestamp },
      by simp only [brelse, if_pos hl], ?_, ?_, ?_, ?_, ?_, ?_, ?_, ?_, ?_, rfl⟩
    · simp [setBuf, upd_same]
    · simp [setBuf, upd_same]
    · intro h0
      simp [setBuf, upd_same, h0]
    · intro h0
      simp [setBuf, upd_same, h0]
    · simp [setBuf, upd_same]
    · simp [setBuf, upd_same]
    · simp [setBuf, upd_same]
    · simp [setBuf, upd_same]
    · intro j hj
      simp [setBuf, upd_ne _ _ _ hj]

/-- C8, witness: releasing the locked slot 26 after bget (0,0) at tick 5
drops the lock, brings ref_count to 0 and stamps the timestamp with 5. -/
theorem claim8_witness :
    (st1.bufs 26).lockHeld = true ∧
    ∃ s', brelse 5 st1 26 = some s' ∧ (s'.bufs 26).lockHeld = false ∧
      (s'.bufs 26).refcnt = 0 ∧ (s'.bufs 26).timestamp = 5 := by
  have H := (claim8_brelse_contract 5 st1 26).2 (by decide)
  obtain ⟨s', he, hlk, hrc, hts, -⟩ := H
  exact ⟨by decide, s', he, hlk, by rw [hrc]; decide, hts (by decide)⟩

/-- C9: bpin increments and bunpin decrements the slot's ref_count, and
nothing else changes: identity, validity, timestamp, payload and the
blocking-lock holder of the slot are untouched (in particular bunpin never
stamps the timestamp, even when the count reaches zero), every other slot
is untouched, and no chain changes. -/
theorem claim9_pin_unpin_frame : ∀ (s : BCache) (i : Nat),
    ((bpin s i).bufs i).refcnt = (s.bufs i).refcnt + 1 ∧
    ((bunpin s i).bufs i).refcnt = (s.bufs i).refcnt - 1 ∧
    ((bpin s i).bufs i).dev = (s.bufs i).dev ∧
    ((bpin s i).bufs i).blockno = (s.bufs i).blockno ∧
    ((bpin s i).bufs i).valid = (s.bufs i).valid ∧
    ((bpin s i).bufs i).timestamp = (s.bufs i).timestamp ∧
    ((bpin s i).bufs i).data = (s.bufs i).data ∧
    ((bpin s i).bufs i).lockHeld = (s.bufs i).lockHeld ∧
    ((bunpin s i).bufs i).dev = (s.bufs i).dev ∧
    ((bunpin s i).bufs i).blockno = (s.bufs i).blockno ∧
    ((bunpin s i).bufs i).valid = (s.bufs i).valid ∧
    ((bunpin s i).bufs i).timestamp = (s.bufs i).timestamp ∧
    ((bunpin s i).bufs i).data = (s.bufs i).data ∧
    ((bunpin s i).bufs i).lockHeld = (s.bufs i).lockHeld ∧
    (∀ j, j ≠ i → (bpin s i).bufs j = s.bufs j) ∧
    (∀ j, j ≠ i → (bunpin s i).bufs j = s.bufs j) ∧
    (bpin s i).chains = s.chains ∧ (bunpin s i).chains = s.chains := by
  intro s i
  refine ⟨?_, ?_, ?_, ?_, ?_, ?_, ?_, ?_, ?_, ?_, ?_, ?_, ?_, ?_, ?_, ?_, rfl, rfl⟩
  all_goals first
    | (intro j hj
       simp [bpin, bunpin, setBuf, upd_ne _ _ _ hj])
    | simp [bpin, bunpin, setBuf, upd_same]

/-- C9, witness: pinning the live slot 26 raises its count to 2; unpinning
brings it back to 0 from 1 without touching its timestamp, and slot 0 is
untouched. -/
theorem claim9_witness :
    ((bpin st1 26).bufs 26).refcnt = 2 ∧ ((bunpin st1 26).bufs 26).refcnt = 0 ∧
      ((bunpin st1 26).bufs 26).timestamp = (st1.bufs 26).timestamp ∧
      (bunpin st1 26).bufs 0 = st1.bufs 0 := by
  have H := claim9_pin_unpin_frame st1 26
  refine ⟨by rw [H.1]; decide, by rw [H.2.1]; decide, ?_, ?_⟩
  · exact H.2.2.2.2.2.2.2.2.2.2.2.1
  · exact H.2.2.2.2.2.2.2.2.2.2.2.2.2.2.2.1 0 (by decide)

/-- C10: every slot bget returns is, at the moment of return, in the chain
of bucket (device + block_number) mod 13; and at every reachable state any
slot with a live reference resides in the chain of the bucket its current
identity hashes to, which is exactly the bucket whose lock brelse, bpin and
bunpin take by re-hashing the slot's identity. -/
theorem claim10_owning_bucket :
    (∀ (s : BCache) (dev blockno : Nat) (s' : BCache) (i : Nat),
        bget s dev blockno = some (s', i) → i ∈ s'.chains ((dev + blockno) % 13)) ∧
    (∀ s : BCache, Reachable s → ∀ i : Nat, 0 < (s.bufs i).refcnt →
        i ∈ s.chains (hash (s.bufs i).dev (s.bufs i).blockno)) := by
  constructor
  · intro s dev blockno s' i h
    exact (bget_props h).2.2.2
  · intro s hs i hi
    have h3 := (reachable_inv hs).2.2.1 i hi
    exact List.mem_of_find?_eq_some h3

/-- C10, witness: the slot returned by bget (0,0) is in bucket (0+0) mod 13,
and in the resulting reachable state the live slot 26 is in the chain its
identity hashes to. -/
theorem claim10_witness :
    (26 : Nat) ∈ st1.chains ((0 + 0) % 13) ∧
      (26 : Nat) ∈ st1.chains (hash (st1.bufs 26).dev (st1.bufs 26).blockno) := by
  refine ⟨claim10_owning_bucket.1 binitState 0 0 st1 26 rfl, ?_⟩
  exact claim10_owning_bucket.2 st1
    (Reachable.step Reachable.init (Step.bget binitState 0 0 st1 26 rfl)) 26 (by decide)

end Bio
